import Mathlib

/-!
Verification of the Smart-HomeChef ingredient Matcher and the surrounding
database operations (`homechef/db.py`), against the repository specification.

Python strings are embedded as `List Char` (`Str`); the embedding covers the
ASCII behaviour of `str.lower()`, `str.strip()`, `str.split()` and
`str.isdigit()`, which is the character range the repository's data uses.
-/

namespace HomeChef

/-- Python strings, embedded as lists of characters. -/
abbrev Str := List Char

/-- Characters treated as whitespace by Python `str.split()` / `str.strip()`
(ASCII whitespace: space, tab, newline, carriage return, vertical tab,
form feed). -/
def isSpaceB (c : Char) : Bool :=
  c.toNat = 32 || c.toNat = 9 || c.toNat = 10 || c.toNat = 13 ||
    c.toNat = 11 || c.toNat = 12

/-- ASCII upper-case letter test. -/
def isUpperA (c : Char) : Bool :=
  65 ≤ c.toNat && c.toNat ≤ 90

/-- Embedding of Python `str.lower()` on one character (ASCII letters). -/
def lowerChar (c : Char) : Char :=
  if isUpperA c then Char.ofNat (c.toNat + 32) else c

/-- The six punctuation characters `', '.', ';', ':', '(', ')'` that
`_normalize_ingredient` replaces by spaces. -/
def isPunctB (c : Char) : Bool :=
  c.toNat = 44 || c.toNat = 46 || c.toNat = 59 || c.toNat = 58 ||
    c.toNat = 40 || c.toNat = 41

/-- One character of the sequential `s.replace(ch, ' ')` loop in
`_normalize_ingredient`: the six replaced characters are pairwise distinct
and none maps to another, so the loop acts as this single character map. -/
def replaceChar (c : Char) : Char :=
  if isPunctB c then ' ' else c

/-- ASCII digit test. -/
def isDigitB (c : Char) : Bool :=
  48 ≤ c.toNat && c.toNat ≤ 57

/-- Embedding of Python `tok.isdigit()`: nonempty and all digits. -/
def pyIsDigit (t : Str) : Bool :=
  !t.isEmpty && t.all isDigitB

/-- Embedding of Python `str.strip()`: drop whitespace from both ends. -/
def pyStrip (s : Str) : Str :=
  ((s.dropWhile isSpaceB).reverse.dropWhile isSpaceB).reverse

/-- Worker for `pySplit`; `cur` holds the reversed current token. -/
def wordsAux : Str → Str → List Str
  | [], cur => if cur = [] then [] else [cur.reverse]
  | c :: cs, cur =>
    if isSpaceB c then
      if cur = [] then wordsAux cs [] else cur.reverse :: wordsAux cs []
    else wordsAux cs (c :: cur)

/-- Embedding of Python `str.split()` with no argument: split on runs of
whitespace, discarding empty tokens. -/
def pySplit (s : Str) : List Str :=
  wordsAux s []

/-- Embedding of Python `' '.join(toks)`. -/
def joinSp : List Str → Str
  | [] => []
  | [t] => t
  | t :: t' :: ts => t ++ ' ' :: joinSp (t' :: ts)

/-- Embedding of `_normalize_ingredient` (db.py:319-324): strip, lower-case,
replace the six punctuation characters by spaces, split on whitespace, drop
purely numeric tokens, rejoin with single spaces. -/
def _normalize_ingredient (line : Str) : Str :=
  joinSp ((pySplit (((pyStrip line).map lowerChar).map replaceChar)).filter
    (fun t => !pyIsDigit t))

/-- The comparison-key computation inlined in `compute_missing_ingredients`
(db.py:335-337): `key = item.split()[-1] if item.split() else item`. -/
def ingredientKey (line : Str) : Str :=
  if (pySplit (_normalize_ingredient line)).isEmpty then _normalize_ingredient line
  else (pySplit (_normalize_ingredient line)).getLastD []

/-- The accumulation loop of `compute_missing_ingredients` (db.py:334-339):
append the key of each line when it is nonempty and not in the pantry. -/
def collectMissing (pantry : List Str) : List Str → List Str
  | [] => []
  | line :: rest =>
    let key := ingredientKey line
    if key ≠ [] ∧ key ∉ pantry then key :: collectMissing pantry rest
    else collectMissing pantry rest

/-- The `seen`/`uniq` deduplication loop of `compute_missing_ingredients`
(db.py:341-346): keep the first occurrence of each key. -/
def dedupFirst : List Str → List Str → List Str
  | _, [] => []
  | seen, m :: ms =>
    if m ∈ seen then dedupFirst seen ms else m :: dedupFirst (m :: seen) ms

/-- The pure core of `compute_missing_ingredients` (db.py:332-347), applied
to the recipe's ingredient lines and the pantry: keep non-blank lines, collect
missing keys, deduplicate preserving first occurrences.  The Python code
wraps the pantry in a `set`, which is used only for membership tests, so a
list with list membership is an exact model. -/
def compute_missing_lines (lines : List Str) (pantry : List Str) : List Str :=
  dedupFirst [] (collectMissing pantry (lines.filter (fun l => pyStrip l ≠ [])))

example : _normalize_ingredient "2 cups whole Milk.".toList = "cups whole milk".toList := by decide

example : compute_missing_lines
    ["1 cup flour".toList, "2 eggs".toList, "1/2 cup milk".toList]
    ["flour".toList, "eggs".toList] = ["milk".toList] := by decide

/-! ## Database state model

The persistence layer is SQLite; the claims only touch the `recipes`,
`pantry_items` and `grocery_items` tables, embedded here as in-memory lists
in insertion order with `AUTOINCREMENT` counters.  The `UNIQUE` constraint on
`pantry_items.name` together with `INSERT OR IGNORE` makes pantry insertion a
guarded append.  Only the recipe fields the claims mention are modelled. -/

/-- A stored recipe row; of its columns only `id` and `ingredients_text`
are consulted by the operations under verification. -/
structure Recipe where
  id : Nat
  ingredients_text : Str
deriving DecidableEq

/-- A stored `grocery_items` row. -/
structure GroceryItem where
  id : Nat
  name : Str
  is_checked : Bool
deriving DecidableEq

/-- The database state relevant to the claims. -/
structure DB where
  recipes : List Recipe
  nextRecipeId : Nat
  pantry : List Str
  grocery : List GroceryItem
  nextGroceryId : Nat
deriving DecidableEq

/-- `get_recipe` (db.py:186-192): `SELECT * FROM recipes WHERE id = ?`. -/
def get_recipe (db : DB) (recipe_id : Nat) : Option Recipe :=
  db.recipes.find? (fun r => r.id == recipe_id)

/-- `add_recipe` (db.py:155-183): insert a row with stripped text fields and
a fresh id.  Only `ingredients_text` is modelled. -/
def add_recipe (db : DB) (ingredients_text : Str) : DB :=
  { db with
    recipes := db.recipes ++ [⟨db.nextRecipeId, pyStrip ingredients_text⟩],
    nextRecipeId := db.nextRecipeId + 1 }

/-- `add_pantry_item` (db.py:224-233): skip falsy (empty) names, otherwise
`INSERT OR IGNORE` of `name.strip().lower()` into the `UNIQUE` column. -/
def add_pantry_item (db : DB) (name : Str) : DB :=
  if name = [] then db
  else
    let n := (pyStrip name).map lowerChar
    if n ∈ db.pantry then db else { db with pantry := db.pantry ++ [n] }

/-- `remove_pantry_item` (db.py:236-241): `DELETE WHERE name = ?` with the
stripped, lower-cased argument. -/
def remove_pantry_item (db : DB) (name : Str) : DB :=
  { db with pantry := db.pantry.filter (fun e => e ≠ (pyStrip name).map lowerChar) }

/-- `add_grocery_item` (db.py:253-260): skip falsy (empty) names, otherwise
insert `name.strip().lower()` unchecked, with a fresh id. -/
def add_grocery_item (db : DB) (name : Str) : DB :=
  if name = [] then db
  else
    { db with
      grocery := db.grocery ++ [⟨db.nextGroceryId, (pyStrip name).map lowerChar, false⟩],
      nextGroceryId := db.nextGroceryId + 1 }

/-- `remove_grocery_item` (db.py:263-268): `DELETE WHERE id = ?`. -/
def remove_grocery_item (db : DB) (item_id : Nat) : DB :=
  { db with grocery := db.grocery.filter (fun e => e.id ≠ item_id) }

/-- `clear_grocery` (db.py:271-276): `DELETE FROM grocery_items`. -/
def clear_grocery (db : DB) : DB :=
  { db with grocery := [] }

/-- `set_grocery_checked` (db.py:279-287): update the flag of one row. -/
def set_grocery_checked (db : DB) (item_id : Nat) (checked : Bool) : DB :=
  { db with
    grocery := db.grocery.map (fun e => if e.id = item_id then ⟨e.id, e.name, checked⟩ else e) }

/-- Worker for `pySplitlines`; `cur` holds the reversed current line. -/
def splitLinesAux : Str → Str → List Str
  | [], cur => if cur = [] then [] else [cur.reverse]
  | c :: cs, cur =>
    if c = '\n' then cur.reverse :: splitLinesAux cs []
    else splitLinesAux cs (c :: cur)

/-- Embedding of Python `str.splitlines()` restricted to `'\n'` boundaries
(the repository's recipe texts use `'\n'` only); a trailing empty segment is
not produced, and interior empty lines are kept. -/
def pySplitlines (s : Str) : List Str :=
  splitLinesAux s []

/-- `compute_missing_ingredients` (db.py:327-347): empty for an unknown
recipe id, otherwise the pure Matcher applied to the recipe's ingredient
lines and the pantry.  `list_pantry()` orders rows by name but the result is
used only as a set, so the stored pantry list is consulted directly. -/
def compute_missing_ingredients (db : DB) (recipe_id : Nat) : List Str :=
  match get_recipe db recipe_id with
  | none => []
  | some r => compute_missing_lines (pySplitlines r.ingredients_text) db.pantry

/-- `add_missing_to_grocery` (db.py:350-354): append each missing key as a
grocery item and return the missing list. -/
def add_missing_to_grocery (db : DB) (recipe_id : Nat) : DB × List Str :=
  let missing := compute_missing_ingredients db recipe_id
  (missing.foldl add_grocery_item db, missing)

/-- The three sample recipes inserted by `init_db` via
`insert_sample_recipes_if_empty` (db.py:62-132); only their ingredient
texts are relevant. -/
def sampleRecipes : List Recipe :=
  [⟨1, "1 cup flour\n2 eggs\n1/2 cup milk\n1/2 cup water\nPinch of salt\n1 tbsp butter".toList⟩,
   ⟨2, "200g spaghetti\n3 cloves garlic\n4 tbsp olive oil\nRed pepper flakes\nSalt\nParsley".toList⟩,
   ⟨3, "3 eggs\n1/4 cup milk\n1/4 cup diced bell pepper\n1/4 cup diced onion\nSalt\nPepper\nOlive oil".toList⟩]

/-- The state produced by `init_db` (db.py:15-59) on a fresh database:
empty pantry and grocery list, the three sample recipes. -/
def initDB : DB :=
  { recipes := sampleRecipes
    nextRecipeId := 4
    pantry := []
    grocery := []
    nextGroceryId := 1 }

/-- One user-level database operation, as exposed by db.py. -/
inductive Op where
  | addRecipe (ingredients_text : Str)
  | addPantry (name : Str)
  | removePantry (name : Str)
  | addGrocery (name : Str)
  | removeGrocery (item_id : Nat)
  | clearGrocery
  | setChecked (item_id : Nat) (checked : Bool)
  | addMissing (recipe_id : Nat)

/-- Apply one operation to the database state. -/
def applyOp (db : DB) : Op → DB
  | .addRecipe t => add_recipe db t
  | .addPantry n => add_pantry_item db n
  | .removePantry n => remove_pantry_item db n
  | .addGrocery n => add_grocery_item db n
  | .removeGrocery i => remove_grocery_item db i
  | .clearGrocery => clear_grocery db
  | .setChecked i b => set_grocery_checked db i b
  | .addMissing r => (add_missing_to_grocery db r).1

/-- Apply a sequence of operations from left to right. -/
def applyOps (db : DB) (ops : List Op) : DB :=
  ops.foldl applyOp db

example : compute_missing_ingredients initDB 7 = [] := by decide

example : (applyOps initDB [.addPantry " Milk ".toList, .addPantry "milk".toList]).pantry
    = ["milk".toList] := by decide

/-! ## Character-level lemmas -/

theorem char_toNat_ofNat_of_lt {n : Nat} (h : n < 55296) : (Char.ofNat n).toNat = n := by
  have hv : n.isValidChar := Or.inl h
  unfold Char.ofNat
  rw [dif_pos hv]
  rfl

theorem isUpperA_iff {c : Char} : isUpperA c = true ↔ 65 ≤ c.toNat ∧ c.toNat ≤ 90 := by
  simp [isUpperA]

theorem isSpaceB_iff {c : Char} :
    isSpaceB c = true ↔
      c.toNat = 32 ∨ c.toNat = 9 ∨ c.toNat = 10 ∨ c.toNat = 13 ∨
        c.toNat = 11 ∨ c.toNat = 12 := by
  simp [isSpaceB, or_assoc]

theorem isPunctB_iff {c : Char} :
    isPunctB c = true ↔
      c.toNat = 44 ∨ c.toNat = 46 ∨ c.toNat = 59 ∨ c.toNat = 58 ∨
        c.toNat = 40 ∨ c.toNat = 41 := by
  simp [isPunctB, or_assoc]

theorem lowerChar_eq_of_not_upper {c : Char} (h : isUpperA c = false) : lowerChar c = c := by
  simp [lowerChar, h]

theorem toNat_lowerChar_of_upper {c : Char} (h : isUpperA c = true) :
    (lowerChar c).toNat = c.toNat + 32 := by
  have hb := isUpperA_iff.mp h
  simp only [lowerChar, h, if_true]
  exact char_toNat_ofNat_of_lt (by omega)

theorem isUpperA_lowerChar (c : Char) : isUpperA (lowerChar c) = false := by
  cases h : isUpperA c with
  | false => rw [lowerChar_eq_of_not_upper h]; exact h
  | true =>
    refine Bool.eq_false_iff.mpr fun hu => ?_
    have h1 := isUpperA_iff.mp hu
    have h2 := toNat_lowerChar_of_upper h
    have h3 := isUpperA_iff.mp h
    omega

theorem lowerChar_lowerChar (c : Char) : lowerChar (lowerChar c) = lowerChar c :=
  lowerChar_eq_of_not_upper (isUpperA_lowerChar c)

theorem isSpaceB_lowerChar (c : Char) : isSpaceB (lowerChar c) = isSpaceB c := by
  cases h : isUpperA c with
  | false => rw [lowerChar_eq_of_not_upper h]
  | true =>
    have h2 := toNat_lowerChar_of_upper h
    have h3 := isUpperA_iff.mp h
    have e1 : isSpaceB (lowerChar c) = false :=
      Bool.eq_false_iff.mpr fun hs => by have := isSpaceB_iff.mp hs; omega
    have e2 : isSpaceB c = false :=
      Bool.eq_false_iff.mpr fun hs => by have := isSpaceB_iff.mp hs; omega
    rw [e1, e2]

theorem replaceChar_eq_of_not_punct {c : Char} (h : isPunctB c = false) : replaceChar c = c := by
  simp [replaceChar, h]

theorem isSpaceB_space : isSpaceB ' ' = true := by decide

/-- A character that is not a space after `replaceChar` was not punctuation
and is unchanged by `replaceChar`. -/
theorem replaceChar_eq_self_of_not_space {c : Char} (h : isSpaceB (replaceChar c) = false) :
    replaceChar c = c ∧ isPunctB c = false := by
  cases hp : isPunctB c with
  | false => exact ⟨replaceChar_eq_of_not_punct hp, rfl⟩
  | true =>
    exfalso
    have : replaceChar c = ' ' := by simp [replaceChar, hp]
    rw [this, isSpaceB_space] at h
    exact Bool.false_ne_true h.symm

/-- Whitespace characters are untouched by lower-casing and punctuation
replacement. -/
theorem lower_replace_of_space {c : Char} (h : isSpaceB c = true) :
    replaceChar (lowerChar c) = c ∧ isSpaceB (replaceChar (lowerChar c)) = true := by
  have hn := isSpaceB_iff.mp h
  have hu : isUpperA c = false :=
    Bool.eq_false_iff.mpr fun hu => by have := isUpperA_iff.mp hu; omega
  have hp : isPunctB c = false :=
    Bool.eq_false_iff.mpr fun hp => by have := isPunctB_iff.mp hp; omega
  rw [lowerChar_eq_of_not_upper hu, replaceChar_eq_of_not_punct hp]
  exact ⟨rfl, h⟩

/-- A character fixed by `lowerChar` is not an upper-case letter. -/
theorem not_upper_of_lowerChar_fixed {c : Char} (h : lowerChar c = c) : isUpperA c = false := by
  have := isUpperA_lowerChar c
  rwa [h] at this

/-! ## Lemmas about `pySplit`, `joinSp` and `pyStrip` -/

theorem map_eq_self_of_fixed {α : Type} {f : α → α} :
    ∀ {l : List α}, (∀ x ∈ l, f x = x) → l.map f = l
  | [], _ => rfl
  | x :: xs, h => by
    simp only [List.map_cons, h x (by simp)]
    rw [map_eq_self_of_fixed (fun y hy => h y (by simp [hy]))]

theorem wordsAux_append_word {w : Str} (hw : ∀ c ∈ w, isSpaceB c = false) :
    ∀ cs cur, wordsAux (w ++ cs) cur = wordsAux cs (w.reverse ++ cur) := by
  induction w with
  | nil => intro cs cur; simp
  | cons c w ih =>
    intro cs cur
    have hc : isSpaceB c = false := hw c (by simp)
    have step : wordsAux ((c :: w) ++ cs) cur = wordsAux (w ++ cs) (c :: cur) := by
      simp [wordsAux, hc]
    rw [step, ih (fun x hx => hw x (by simp [hx])) cs (c :: cur)]
    congr 1
    simp

theorem wordsAux_all_space {t : Str} (ht : ∀ c ∈ t, isSpaceB c = true) :
    ∀ cur, wordsAux t cur = if cur = [] then [] else [cur.reverse] := by
  induction t with
  | nil => intro cur; rfl
  | cons c t ih =>
    intro cur
    have hc : isSpaceB c = true := ht c (by simp)
    have ih0 := ih (fun x hx => ht x (by simp [hx])) []
    simp only [wordsAux, hc, if_true]
    by_cases h : cur = [] <;> simp [h, ih0]

theorem wordsAux_space_pre {p : Str} (hp : ∀ c ∈ p, isSpaceB c = true) (s : Str) :
    wordsAux (p ++ s) [] = wordsAux s [] := by
  induction p with
  | nil => rfl
  | cons c p ih =>
    have hc : isSpaceB c = true := hp c (by simp)
    simp only [List.cons_append, wordsAux, hc, if_true, if_pos rfl]
    exact ih (fun x hx => hp x (by simp [hx]))

theorem wordsAux_space_suf {t : Str} (ht : ∀ c ∈ t, isSpaceB c = true) (s : Str) :
    ∀ cur, wordsAux (s ++ t) cur = wordsAux s cur := by
  induction s with
  | nil =>
    intro cur
    rw [List.nil_append, wordsAux_all_space ht cur]
    rfl
  | cons c s ih =>
    intro cur
    simp only [List.cons_append, wordsAux]
    by_cases hc : isSpaceB c <;> by_cases hcur : cur = [] <;> simp [hc, hcur, ih]

theorem pySplit_joinSp :
    ∀ {toks : List Str}, (∀ t ∈ toks, t ≠ [] ∧ ∀ c ∈ t, isSpaceB c = false) →
      pySplit (joinSp toks) = toks
  | [], _ => rfl
  | [t], h => by
    obtain ⟨hne, hns⟩ := h t (by simp)
    show wordsAux (joinSp [t]) [] = [t]
    have e : joinSp [t] = t ++ [] := by simp [joinSp]
    rw [e, wordsAux_append_word hns [] []]
    simp [wordsAux, hne]
  | t :: t' :: ts, h => by
    obtain ⟨hne, hns⟩ := h t (by simp)
    show wordsAux (joinSp (t :: t' :: ts)) [] = t :: t' :: ts
    have e : joinSp (t :: t' :: ts) = t ++ ' ' :: joinSp (t' :: ts) := rfl
    rw [e, wordsAux_append_word hns (' ' :: joinSp (t' :: ts)) []]
    have hrev : t.reverse ++ [] ≠ [] := by simp [hne]
    simp only [wordsAux, isSpaceB_space, if_true, if_neg hrev]
    have ih := pySplit_joinSp (fun u hu => h u (List.mem_cons_of_mem t hu))
    have e2 : wordsAux (joinSp (t' :: ts)) [] = t' :: ts := ih
    rw [e2]
    simp

theorem wordsAux_wf : ∀ (s : Str) (cur : Str), (∀ c ∈ cur, isSpaceB c = false) →
    ∀ t ∈ wordsAux s cur, t ≠ [] ∧ ∀ c ∈ t, isSpaceB c = false := by
  intro s
  induction s with
  | nil =>
    intro cur hcur t ht
    by_cases h : cur = []
    · simp [wordsAux, h] at ht
    · simp only [wordsAux, if_neg h, List.mem_singleton] at ht
      subst ht
      refine ⟨by simp [h], fun c hc => hcur c (List.mem_reverse.mp hc)⟩
  | cons c s ih =>
    intro cur hcur t ht
    by_cases hc : isSpaceB c
    · by_cases hcu : cur = []
      · simp only [wordsAux, hc, if_true, hcu, if_pos rfl] at ht
        exact ih [] (by simp) t ht
      · simp only [wordsAux, hc, if_true, if_neg hcu, List.mem_cons] at ht
        rcases ht with rfl | ht
        · exact ⟨by simp [hcu], fun x hx => hcur x (List.mem_reverse.mp hx)⟩
        · exact ih [] (by simp) t ht
    · simp only [wordsAux, hc, Bool.false_eq_true, if_false] at ht
      refine ih (c :: cur) ?_ t ht
      intro x hx
      rcases List.mem_cons.mp hx with rfl | hx
      · simpa using hc
      · exact hcur x hx

theorem wordsAux_chars : ∀ (s : Str) (cur t : Str) (c : Char),
    t ∈ wordsAux s cur → c ∈ t → c ∈ s ∨ c ∈ cur := by
  intro s
  induction s with
  | nil =>
    intro cur t c ht hc
    by_cases h : cur = []
    · simp [wordsAux, h] at ht
    · simp only [wordsAux, if_neg h, List.mem_singleton] at ht
      subst ht
      exact Or.inr (List.mem_reverse.mp hc)
  | cons a s ih =>
    intro cur t c ht hc
    by_cases ha : isSpaceB a
    · by_cases hcu : cur = []
      · simp only [wordsAux, ha, if_true, hcu, if_pos rfl] at ht
        rcases ih [] t c ht hc with h | h
        · exact Or.inl (by simp [h])
        · simp at h
      · simp only [wordsAux, ha, if_true, if_neg hcu, List.mem_cons] at ht
        rcases ht with rfl | ht
        · exact Or.inr (List.mem_reverse.mp hc)
        · rcases ih [] t c ht hc with h | h
          · exact Or.inl (by simp [h])
          · simp at h
    · simp only [wordsAux, ha, Bool.false_eq_true, if_false] at ht
      rcases ih (a :: cur) t c ht hc with h | h
      · exact Or.inl (by simp [h])
      · rcases List.mem_cons.mp h with rfl | h
        · exact Or.inl (by simp)
        · exact Or.inr h

theorem mem_joinSp {c : Char} :
    ∀ {toks : List Str}, c ∈ joinSp toks → (∃ t ∈ toks, c ∈ t) ∨ c = ' '
  | [], h => by simp [joinSp] at h
  | [t], h => Or.inl ⟨t, by simp, h⟩
  | t :: t' :: ts, h => by
    have e : joinSp (t :: t' :: ts) = t ++ ' ' :: joinSp (t' :: ts) := rfl
    rw [e] at h
    rcases List.mem_append.mp h with h | h
    · exact Or.inl ⟨t, by simp, h⟩
    · rcases List.mem_cons.mp h with rfl | h
      · exact Or.inr rfl
      · rcases mem_joinSp h with ⟨u, hu, hcu⟩ | h
        · exact Or.inl ⟨u, by simp [hu], hcu⟩
        · exact Or.inr h

theorem dropWhile_of_all_neg {p : Char → Bool} :
    ∀ {l : Str}, (∀ c ∈ l, p c = false) → l.dropWhile p = l
  | [], _ => rfl
  | c :: cs, h => by
    have hc : p c = false := h c (by simp)
    simp [List.dropWhile_cons, hc]

theorem pyStrip_eq_self_of_no_space {l : Str} (h : ∀ c ∈ l, isSpaceB c = false) :
    pyStrip l = l := by
  unfold pyStrip
  rw [dropWhile_of_all_neg h,
    dropWhile_of_all_neg (fun c hc => h c (List.mem_reverse.mp hc)),
    List.reverse_reverse]

/-- `s` decomposes as all-space prefix, `pyStrip s`, all-space suffix. -/
theorem pyStrip_decomp (s : Str) :
    ∃ p t, (∀ c ∈ p, isSpaceB c = true) ∧ (∀ c ∈ t, isSpaceB c = true) ∧
      s = p ++ pyStrip s ++ t := by
  refine ⟨s.takeWhile isSpaceB,
    ((s.dropWhile isSpaceB).reverse.takeWhile isSpaceB).reverse,
    fun c hc => List.mem_takeWhile_imp hc,
    fun c hc => List.mem_takeWhile_imp (List.mem_reverse.mp hc), ?_⟩
  have h3 : s.dropWhile isSpaceB
      = pyStrip s ++ ((s.dropWhile isSpaceB).reverse.takeWhile isSpaceB).reverse := by
    unfold pyStrip
    calc s.dropWhile isSpaceB
        = (s.dropWhile isSpaceB).reverse.reverse := (List.reverse_reverse _).symm
      _ = ((s.dropWhile isSpaceB).reverse.takeWhile isSpaceB
            ++ (s.dropWhile isSpaceB).reverse.dropWhile isSpaceB).reverse := by
          rw [List.takeWhile_append_dropWhile]
      _ = ((s.dropWhile isSpaceB).reverse.dropWhile isSpaceB).reverse
            ++ ((s.dropWhile isSpaceB).reverse.takeWhile isSpaceB).reverse := by
          rw [List.reverse_append]
  conv_lhs => rw [← List.takeWhile_append_dropWhile isSpaceB s, h3]
  rw [List.append_assoc]

/-! ## The normalizer: spec pipeline, token structure, idempotence -/

/-- Modelled from the spec's reference pipeline for `normalize`
(spec.md §4.1): lower-case the line, replace the six punctuation characters
by spaces, split on whitespace, discard purely numeric tokens, rejoin with
single spaces — with no initial strip.  Used to compare the source
implementation against the spec's wording. -/
def normalizeSpec (line : Str) : Str :=
  joinSp ((pySplit ((line.map lowerChar).map replaceChar)).filter
    (fun t => !pyIsDigit t))

/-- The token list underlying `_normalize_ingredient line`. -/
def normToks (line : Str) : List Str :=
  (pySplit (((pyStrip line).map lowerChar).map replaceChar)).filter
    (fun t => !pyIsDigit t)

theorem normalize_eq_joinSp (line : Str) :
    _normalize_ingredient line = joinSp (normToks line) := rfl

/-- Lower-casing and punctuation replacement turn whitespace into itself,
so stripping the line first does not change the split. -/
theorem pySplit_map_strip (s : Str) :
    pySplit (((pyStrip s).map lowerChar).map replaceChar)
      = pySplit ((s.map lowerChar).map replaceChar) := by
  obtain ⟨p, t, hp, ht, hs⟩ := pyStrip_decomp s
  have hmap : ∀ (u : Str), (∀ c ∈ u, isSpaceB c = true) →
      ∀ c ∈ (u.map lowerChar).map replaceChar, isSpaceB c = true := by
    intro u hu c hc
    simp only [List.map_map, List.mem_map, Function.comp] at hc
    obtain ⟨x, hx, rfl⟩ := hc
    exact (lower_replace_of_space (hu x hx)).2
  conv_rhs => rw [hs]
  simp only [List.map_append]
  show pySplit _ = wordsAux _ []
  rw [wordsAux_space_suf (hmap t ht) _ [],
    wordsAux_space_pre (hmap p hp)]
  rfl

/-- C2 core: the implementation agrees with the spec's pipeline on every
input. -/
theorem normalize_eq_spec (s : Str) : _normalize_ingredient s = normalizeSpec s := by
  unfold _normalize_ingredient normalizeSpec
  rw [pySplit_map_strip]

/-- Every token of a normalized line is nonempty, not purely numeric, and
consists of characters that are not whitespace and are fixed by both
lower-casing and punctuation replacement. -/
theorem normToks_wf {line : Str} :
    ∀ t ∈ normToks line, t ≠ [] ∧ (!pyIsDigit t) = true ∧
      ∀ c ∈ t, isSpaceB c = false ∧ lowerChar c = c ∧ replaceChar c = c := by
  intro t ht
  rw [normToks, List.mem_filter] at ht
  obtain ⟨hts, hdig⟩ := ht
  obtain ⟨hne, hns⟩ := wordsAux_wf _ [] (by simp) t hts
  refine ⟨hne, hdig, fun c hc => ?_⟩
  have hcs := hns c hc
  have hcm : c ∈ ((pyStrip line).map lowerChar).map replaceChar := by
    rcases wordsAux_chars _ [] t c hts hc with h | h
    · exact h
    · simp at h
  simp only [List.map_map, List.mem_map, Function.comp] at hcm
  obtain ⟨x, hx, rfl⟩ := hcm
  obtain ⟨heq, hpun⟩ := replaceChar_eq_self_of_not_space hcs
  refine ⟨hcs, ?_, ?_⟩
  · rw [heq, lowerChar_lowerChar]
  · rw [heq]
    exact heq

theorem pySplit_normalize (line : Str) :
    pySplit (_normalize_ingredient line) = normToks line := by
  rw [normalize_eq_joinSp]
  exact pySplit_joinSp (fun t ht =>
    ⟨(normToks_wf t ht).1, fun c hc => ((normToks_wf t ht).2.2 c hc).1⟩)

theorem getLastD_mem {α : Type} (d : α) : ∀ {l : List α}, l ≠ [] → l.getLastD d ∈ l
  | [], h => absurd rfl h
  | [x], _ => by simp
  | x :: y :: t, _ => by
    rw [List.getLastD_cons]
    exact List.mem_cons_of_mem x (getLastD_mem x (by simp))

/-- `ingredientKey` is the empty key on a tokenless line, and otherwise the
last token of the normalized line. -/
theorem ingredientKey_cases (line : Str) :
    (normToks line = [] ∧ ingredientKey line = []) ∨
      (normToks line ≠ [] ∧ ingredientKey line = (normToks line).getLastD []) := by
  unfold ingredientKey
  rw [pySplit_normalize]
  by_cases h : normToks line = []
  · left
    refine ⟨h, ?_⟩
    rw [if_pos (by simp [h]), normalize_eq_joinSp, h]
    rfl
  · right
    refine ⟨h, ?_⟩
    rw [if_neg (by simp [h])]

/-- A nonempty key is one of the tokens of its normalized line. -/
theorem ingredientKey_mem_normToks {line : Str} (h : ingredientKey line ≠ []) :
    ingredientKey line ∈ normToks line := by
  rcases ingredientKey_cases line with ⟨_, hk⟩ | ⟨h0, hk⟩
  · exact absurd hk h
  · rw [hk]
    exact getLastD_mem [] h0

/-- The key is always the last whitespace-separated token of the normalized
form (with the empty default on a tokenless line). -/
theorem ingredientKey_eq_getLastD (line : Str) :
    ingredientKey line = (pySplit (_normalize_ingredient line)).getLastD [] := by
  rcases ingredientKey_cases line with ⟨h0, hk⟩ | ⟨h0, hk⟩
  · rw [hk, pySplit_normalize, h0]
    rfl
  · rw [hk, pySplit_normalize]

/-! ## Strip: idempotence and commutation with lower-casing -/

theorem dropWhile_eq_self_of_head {p : Char → Bool} :
    ∀ {l : Str}, (∀ c, l.head? = some c → p c = false) → l.dropWhile p = l
  | [], _ => rfl
  | c :: cs, h => by
    have hc : p c = false := h c rfl
    simp [List.dropWhile_cons, hc]

theorem head?_dropWhile_false {p : Char → Bool} {l : Str} {c : Char}
    (h : (l.dropWhile p).head? = some c) : p c = false := by
  have := List.head?_dropWhile_not p l
  rw [h] at this
  exact this

theorem getLast?_dropWhile {p : Char → Bool} :
    ∀ {l : Str}, l.dropWhile p ≠ [] → (l.dropWhile p).getLast? = l.getLast?
  | [], h => absurd rfl h
  | a :: l, h => by
    by_cases ha : p a
    · rw [List.dropWhile_cons, if_pos ha] at h ⊢
      have hl : l ≠ [] := by
        intro e
        rw [e] at h
        exact h rfl
      rw [getLast?_dropWhile h]
      obtain ⟨b, t, rfl⟩ := List.exists_cons_of_ne_nil hl
      exact List.getLast?_cons_cons.symm
    · rw [List.dropWhile_cons, if_neg ha] at h ⊢

/-- `pyStrip` is idempotent. -/
theorem pyStrip_pyStrip (s : Str) : pyStrip (pyStrip s) = pyStrip s := by
  by_cases hv : pyStrip s = []
  · rw [hv]
    rfl
  · set u := s.dropWhile isSpaceB with hu
    set v := u.reverse.dropWhile isSpaceB with hv2
    have hstrip : pyStrip s = v.reverse := rfl
    have hvne : v ≠ [] := by
      intro e
      rw [hstrip, e] at hv
      exact hv rfl
    have hdv : v.dropWhile isSpaceB = v :=
      dropWhile_eq_self_of_head fun c hc => head?_dropWhile_false (hv2 ▸ hc)
    have hune : u ≠ [] := by
      intro e
      rw [hv2, e] at hvne
      exact hvne rfl
    have hdrev : v.reverse.dropWhile isSpaceB = v.reverse := by
      refine dropWhile_eq_self_of_head fun c hc => ?_
      rw [List.head?_reverse, hv2, getLast?_dropWhile (hv2 ▸ hvne),
        List.getLast?_reverse] at hc
      exact head?_dropWhile_false (hu ▸ hc)
    rw [hstrip]
    show ((v.reverse.dropWhile isSpaceB).reverse.dropWhile isSpaceB).reverse = v.reverse
    rw [hdrev, List.reverse_reverse, hdv]

/-- `pyStrip` commutes with lower-casing, because lower-casing preserves
whitespace-ness. -/
theorem pyStrip_map_lowerChar (l : Str) :
    pyStrip (l.map lowerChar) = (pyStrip l).map lowerChar := by
  have hpred : (isSpaceB ∘ lowerChar) = isSpaceB :=
    funext fun c => isSpaceB_lowerChar c
  unfold pyStrip
  rw [List.dropWhile_map, hpred, ← List.map_reverse, List.dropWhile_map, hpred,
    ← List.map_reverse]

/-- The stored pantry/grocery form of a name: stripped then lower-cased,
i.e. Python `name.strip().lower()`. -/
def canonName (s : Str) : Str :=
  (pyStrip s).map lowerChar

theorem map_lowerChar_idem (l : Str) :
    (l.map lowerChar).map lowerChar = l.map lowerChar := by
  rw [List.map_map]
  exact List.map_congr_left fun a _ => lowerChar_lowerChar a

/-- The stored form is a fixed point of strip-then-lower. -/
theorem canonName_canonName (s : Str) : canonName (canonName s) = canonName s := by
  unfold canonName
  rw [pyStrip_map_lowerChar, pyStrip_pyStrip, map_lowerChar_idem]

/-! ## Membership and order in `compute_missing_lines` -/

theorem mem_dedupFirst {k : Str} : ∀ (ms seen : List Str),
    k ∈ dedupFirst seen ms ↔ k ∈ ms ∧ k ∉ seen
  | [], seen => by simp [dedupFirst]
  | m :: ms, seen => by
    by_cases hm : m ∈ seen
    · rw [show dedupFirst seen (m :: ms) = dedupFirst seen ms by
        simp [dedupFirst, hm], mem_dedupFirst ms seen]
      constructor
      · rintro ⟨h1, h2⟩
        exact ⟨List.mem_cons_of_mem m h1, h2⟩
      · rintro ⟨h1, h2⟩
        rcases List.mem_cons.mp h1 with rfl | h1
        · exact absurd hm h2
        · exact ⟨h1, h2⟩
    · rw [show dedupFirst seen (m :: ms) = m :: dedupFirst (m :: seen) ms by
        simp [dedupFirst, hm]]
      constructor
      · intro h
        rcases List.mem_cons.mp h with rfl | h
        · exact ⟨List.mem_cons_self _ _, hm⟩
        · obtain ⟨h1, h2⟩ := (mem_dedupFirst ms (m :: seen)).mp h
          exact ⟨List.mem_cons_of_mem m h1,
            fun hs => h2 (List.mem_cons_of_mem m hs)⟩
      · rintro ⟨h1, h2⟩
        by_cases hk : k = m
        · subst hk
          exact List.mem_cons_self _ _
        · rcases List.mem_cons.mp h1 with rfl | h1
          · exact absurd rfl hk
          · refine List.mem_cons_of_mem m ((mem_dedupFirst ms (m :: seen)).mpr ⟨h1, ?_⟩)
            intro hs
            rcases List.mem_cons.mp hs with h | h
            · exact hk h
            · exact h2 h

theorem nodup_dedupFirst : ∀ (ms seen : List Str), (dedupFirst seen ms).Nodup
  | [], _ => List.nodup_nil
  | m :: ms, seen => by
    by_cases hm : m ∈ seen
    · rw [show dedupFirst seen (m :: ms) = dedupFirst seen ms by simp [dedupFirst, hm]]
      exact nodup_dedupFirst ms seen
    · rw [show dedupFirst seen (m :: ms) = m :: dedupFirst (m :: seen) ms by
        simp [dedupFirst, hm], List.nodup_cons]
      refine ⟨fun hmem => ?_, nodup_dedupFirst ms (m :: seen)⟩
      exact ((mem_dedupFirst ms (m :: seen)).mp hmem).2 (List.mem_cons_self m seen)

theorem mem_collectMissing {pantry : List Str} {k : Str} : ∀ {ls : List Str},
    k ∈ collectMissing pantry ls ↔
      ∃ l ∈ ls, ingredientKey l = k ∧ k ≠ [] ∧ k ∉ pantry
  | [] => by simp [collectMissing]
  | line :: rest => by
    by_cases h : ingredientKey line ≠ [] ∧ ingredientKey line ∉ pantry
    · rw [show collectMissing pantry (line :: rest)
          = ingredientKey line :: collectMissing pantry rest by
        simp [collectMissing, h]]
      constructor
      · intro hk
        rcases List.mem_cons.mp hk with rfl | hk
        · exact ⟨line, List.mem_cons_self _ _, rfl, h⟩
        · obtain ⟨l, hl, hrest⟩ := mem_collectMissing.mp hk
          exact ⟨l, List.mem_cons_of_mem _ hl, hrest⟩
      · rintro ⟨l, hl, hkey, hne, hnp⟩
        rcases List.mem_cons.mp hl with rfl | hl
        · rw [← hkey]
          exact List.mem_cons_self _ _
        · exact List.mem_cons_of_mem _ (mem_collectMissing.mpr ⟨l, hl, hkey, hne, hnp⟩)
    · rw [show collectMissing pantry (line :: rest) = collectMissing pantry rest by
        simp only [collectMissing, if_neg h]]
      rw [mem_collectMissing]
      constructor
      · rintro ⟨l, hl, hrest⟩
        exact ⟨l, List.mem_cons_of_mem _ hl, hrest⟩
      · rintro ⟨l, hl, hkey, hne, hnp⟩
        rcases List.mem_cons.mp hl with rfl | hl
        · exact absurd ⟨hkey ▸ hne, hkey ▸ hnp⟩ h
        · exact ⟨l, hl, hkey, hne, hnp⟩

/-- C1 core: a key is in the output exactly when it is nonempty, absent from
the pantry, and produced by some non-blank input line. -/
theorem mem_compute_missing_lines {lines pantry : List Str} {k : Str} :
    k ∈ compute_missing_lines lines pantry ↔
      k ≠ [] ∧ k ∉ pantry ∧ ∃ l ∈ lines, pyStrip l ≠ [] ∧ ingredientKey l = k := by
  unfold compute_missing_lines
  rw [mem_dedupFirst, mem_collectMissing]
  constructor
  · rintro ⟨⟨l, hl, hkey, hne, hnp⟩, -⟩
    obtain ⟨hmem, hblank⟩ := List.mem_filter.mp hl
    exact ⟨hne, hnp, l, hmem, by simpa using hblank, hkey⟩
  · rintro ⟨hne, hnp, l, hl, hblank, hkey⟩
    exact ⟨⟨l, List.mem_filter.mpr ⟨hl, by simpa using hblank⟩, hkey, hne, hnp⟩,
      by simp⟩

/-- Modelled from the spec: "Output preserves first-occurrence order and
removes duplicate keys" — fold left, appending each key the first time it
appears. -/
def firstOccurrences (l : List Str) : List Str :=
  l.foldl (fun acc m => if m ∈ acc then acc else acc ++ [m]) []

theorem dedupFirst_eq_firstOccurrences_aux :
    ∀ (ms seen acc : List Str), (∀ x, x ∈ seen ↔ x ∈ acc) →
      acc ++ dedupFirst seen ms
        = ms.foldl (fun a m => if m ∈ a then a else a ++ [m]) acc
  | [], _, acc, _ => by simp [dedupFirst]
  | m :: ms, seen, acc, h => by
    by_cases hm : m ∈ seen
    · have hma : m ∈ acc := (h m).mp hm
      rw [show dedupFirst seen (m :: ms) = dedupFirst seen ms by simp [dedupFirst, hm],
        List.foldl_cons, if_pos hma]
      exact dedupFirst_eq_firstOccurrences_aux ms seen acc h
    · have hma : m ∉ acc := fun hx => hm ((h m).mpr hx)
      rw [show dedupFirst seen (m :: ms) = m :: dedupFirst (m :: seen) ms by
        simp [dedupFirst, hm], List.foldl_cons, if_neg hma,
        ← dedupFirst_eq_firstOccurrences_aux ms (m :: seen) (acc ++ [m])
          (fun x => by simp [h x, List.mem_cons, or_comm])]
      simp

/-- C3 core: the source's `seen`-set loop equals the spec's first-occurrence
deduplication. -/
theorem dedupFirst_eq_firstOccurrences (l : List Str) :
    dedupFirst [] l = firstOccurrences l := by
  have := dedupFirst_eq_firstOccurrences_aux l [] [] (fun x => by simp)
  simpa [firstOccurrences] using this

/-- C6 core: `_normalize_ingredient` is idempotent. -/
theorem normalize_idem (s : Str) :
    _normalize_ingredient (_normalize_ingredient s) = _normalize_ingredient s := by
  rw [normalize_eq_spec (_normalize_ingredient s), normalize_eq_joinSp s]
  unfold normalizeSpec
  have hlower : (joinSp (normToks s)).map lowerChar = joinSp (normToks s) := by
    refine map_eq_self_of_fixed fun c hc => ?_
    rcases mem_joinSp hc with ⟨t, ht, hct⟩ | rfl
    · exact ((normToks_wf t ht).2.2 c hct).2.1
    · decide
  have hreplace : (joinSp (normToks s)).map replaceChar = joinSp (normToks s) := by
    refine map_eq_self_of_fixed fun c hc => ?_
    rcases mem_joinSp hc with ⟨t, ht, hct⟩ | rfl
    · exact ((normToks_wf t ht).2.2 c hct).2.2
    · decide
  rw [hlower, hreplace,
    pySplit_joinSp (fun t ht =>
      ⟨(normToks_wf t ht).1, fun c hc => ((normToks_wf t ht).2.2 c hc).1⟩),
    List.filter_eq_self.mpr (fun t ht => (normToks_wf t ht).2.1)]

/-! ## State invariants: pantry uniqueness, grocery lower-casing -/

/-- Every pantry entry is a fixed point of strip-then-lower, and the pantry
has no duplicate rows (the SQL `UNIQUE` constraint). -/
def PantryInv (db : DB) : Prop :=
  (∀ e ∈ db.pantry, canonName e = e) ∧ db.pantry.Nodup

/-- Every stored grocery name has no upper-case letter. -/
def GroceryInv (db : DB) : Prop :=
  ∀ e ∈ db.grocery, ∀ c ∈ e.name, isUpperA c = false

theorem pantryInv_initDB : PantryInv initDB :=
  ⟨fun e he => absurd he (List.not_mem_nil e), List.nodup_nil⟩

theorem groceryInv_initDB : GroceryInv initDB :=
  fun e he => absurd he (List.not_mem_nil e)

theorem pantry_add_grocery_item (db : DB) (m : Str) :
    (add_grocery_item db m).pantry = db.pantry := by
  unfold add_grocery_item
  by_cases h : m = [] <;> simp [h]

theorem pantry_foldl_add_grocery : ∀ (ms : List Str) (db : DB),
    (ms.foldl add_grocery_item db).pantry = db.pantry
  | [], _ => rfl
  | m :: ms, db => by
    rw [List.foldl_cons, pantry_foldl_add_grocery ms, pantry_add_grocery_item]

theorem pantryInv_applyOp {db : DB} (h : PantryInv db) (op : Op) :
    PantryInv (applyOp db op) := by
  obtain ⟨hfix, hnd⟩ := h
  cases op with
  | addPantry n =>
    show PantryInv (add_pantry_item db n)
    unfold add_pantry_item
    by_cases hn : n = []
    · rw [if_pos hn]
      exact ⟨hfix, hnd⟩
    · rw [if_neg hn]
      by_cases hmem : (pyStrip n).map lowerChar ∈ db.pantry
      · rw [if_pos hmem]
        exact ⟨hfix, hnd⟩
      · rw [if_neg hmem]
        refine ⟨fun e he => ?_, ?_⟩
        · simp only [List.mem_append, List.mem_singleton] at he
          rcases he with he | rfl
          · exact hfix e he
          · exact canonName_canonName n
        · rw [List.nodup_append]
          exact ⟨hnd, List.nodup_singleton _,
            fun a ha hb => by
              rw [List.mem_singleton] at hb
              subst hb
              exact hmem ha⟩
  | removePantry n =>
    exact ⟨fun e he => hfix e (List.mem_of_mem_filter he), hnd.filter _⟩
  | addMissing r =>
    show PantryInv ((add_missing_to_grocery db r).1)
    have e : (add_missing_to_grocery db r).1.pantry = db.pantry :=
      pantry_foldl_add_grocery _ db
    exact ⟨fun x hx => hfix x (e ▸ hx), e ▸ hnd⟩
  | addRecipe t => exact ⟨hfix, hnd⟩
  | addGrocery n =>
    have e := pantry_add_grocery_item db n
    exact ⟨fun x hx => hfix x (e ▸ hx), e ▸ hnd⟩
  | removeGrocery i => exact ⟨hfix, hnd⟩
  | clearGrocery => exact ⟨hfix, hnd⟩
  | setChecked i b => exact ⟨hfix, hnd⟩

theorem pantryInv_applyOps : ∀ (ops : List Op) (db : DB),
    PantryInv db → PantryInv (applyOps db ops)
  | [], _, h => h
  | op :: ops, db, h => pantryInv_applyOps ops (applyOp db op) (pantryInv_applyOp h op)

/-- C8 core: under the invariant, pantry entries are pairwise distinct under
case-insensitive whitespace-trimmed comparison. -/
theorem pantry_pairwise {db : DB} (h : PantryInv db) :
    db.pantry.Pairwise (fun a b => canonName a ≠ canonName b) := by
  obtain ⟨hfix, hnd⟩ := h
  refine hnd.imp_of_mem fun ha hb hne => ?_
  rw [hfix _ ha, hfix _ hb]
  exact hne

theorem groceryInv_add_grocery_item {db : DB} (h : GroceryInv db) (name : Str) :
    GroceryInv (add_grocery_item db name) := by
  unfold GroceryInv add_grocery_item
  by_cases hn : name = []
  · rw [if_pos hn]
    exact h
  · rw [if_neg hn]
    intro e he
    simp only [List.mem_append, List.mem_singleton] at he
    rcases he with he | rfl
    · exact h e he
    · intro c hc
      simp only [List.mem_map] at hc
      obtain ⟨x, _, rfl⟩ := hc
      exact isUpperA_lowerChar x

theorem groceryInv_foldl {db : DB} (h : GroceryInv db) :
    ∀ (ms : List Str), GroceryInv (ms.foldl add_grocery_item db) := by
  intro ms
  induction ms generalizing db with
  | nil => exact h
  | cons m ms ih => exact ih (groceryInv_add_grocery_item h m)

theorem groceryInv_applyOp {db : DB} (h : GroceryInv db) (op : Op) :
    GroceryInv (applyOp db op) := by
  cases op with
  | addRecipe t => exact h
  | addPantry n =>
    show GroceryInv (add_pantry_item db n)
    unfold add_pantry_item
    by_cases hn : n = []
    · rw [if_pos hn]
      exact h
    · rw [if_neg hn]
      by_cases hmem : (pyStrip n).map lowerChar ∈ db.pantry
      · rw [if_pos hmem]
        exact h
      · rw [if_neg hmem]
        exact h
  | removePantry n => exact h
  | addGrocery n => exact groceryInv_add_grocery_item h n
  | removeGrocery i => exact fun e he => h e (List.mem_of_mem_filter he)
  | clearGrocery => exact fun e he => absurd he (List.not_mem_nil e)
  | setChecked i b =>
    intro e he
    simp only [applyOp, set_grocery_checked, List.mem_map] at he
    obtain ⟨x, hx, rfl⟩ := he
    by_cases hid : x.id = i
    · simpa [hid] using h x hx
    · simpa [hid] using h x hx
  | addMissing r => exact groceryInv_foldl h _

theorem groceryInv_applyOps : ∀ (ops : List Op) (db : DB),
    GroceryInv db → GroceryInv (applyOps db ops)
  | [], _, h => h
  | op :: ops, db, h => groceryInv_applyOps ops (applyOp db op) (groceryInv_applyOp h op)

/-- C9 core: every key in the Matcher's output is nonempty and already in
stored form (stripping and lower-casing it does nothing). -/
theorem compute_missing_key_canon {lines pantry : List Str} {k : Str}
    (h : k ∈ compute_missing_lines lines pantry) : k ≠ [] ∧ canonName k = k := by
  obtain ⟨hne, -, l, -, -, hkey⟩ := mem_compute_missing_lines.mp h
  subst hkey
  refine ⟨hne, ?_⟩
  have hk := ingredientKey_mem_normToks hne
  obtain ⟨-, -, hchars⟩ := normToks_wf _ hk
  unfold canonName
  rw [pyStrip_eq_self_of_no_space (fun c hc => (hchars c hc).1)]
  exact map_eq_self_of_fixed (fun c hc => (hchars c hc).2.1)

theorem grocery_names_foldl : ∀ (ms : List Str) (db : DB),
    (∀ m ∈ ms, m ≠ [] ∧ canonName m = m) →
    ((ms.foldl add_grocery_item db).grocery).map GroceryItem.name
      = db.grocery.map GroceryItem.name ++ ms
  | [], db, _ => by simp
  | m :: ms, db, h => by
    obtain ⟨hne, hcan⟩ := h m (List.mem_cons_self _ _)
    have e : (add_grocery_item db m).grocery
        = db.grocery ++ [⟨db.nextGroceryId, canonName m, false⟩] := by
      unfold add_grocery_item
      rw [if_neg hne]
      rfl
    rw [List.foldl_cons,
      grocery_names_foldl ms _ (fun x hx => h x (List.mem_cons_of_mem _ hx)), e]
    simp [hcan]

/-- C9 core: `add_missing_to_grocery` appends exactly the missing keys, as
names, to the grocery list. -/
theorem add_missing_names (db : DB) (rid : Nat) :
    ((add_missing_to_grocery db rid).1.grocery).map GroceryItem.name
      = db.grocery.map GroceryItem.name ++ compute_missing_ingredients db rid := by
  show ((compute_missing_ingredients db rid).foldl add_grocery_item db).grocery.map
      GroceryItem.name = _
  apply grocery_names_foldl
  intro m hm
  unfold compute_missing_ingredients at hm
  cases hfind : get_recipe db rid with
  | none =>
    rw [hfind] at hm
    simp at hm
  | some r =>
    rw [hfind] at hm
    exact compute_missing_key_canon hm


/-! ## Claim theorems -/

/-- C1: `compute_missing_lines` reports a key exactly when some non-blank
input line produces it, it is nonempty, and it is not in the pantry; the
comparison key of a line is always the last whitespace-separated token of
its normalized form; and on the spec's example the result is `["milk"]`. -/
theorem C1_missing_ingredients_characterization :
    (∀ (lines pantry : List Str) (k : Str),
        k ∈ compute_missing_lines lines pantry ↔
          k ≠ [] ∧ k ∉ pantry ∧ ∃ l ∈ lines, pyStrip l ≠ [] ∧ ingredientKey l = k) ∧
    (∀ line : Str,
        ingredientKey line = (pySplit (_normalize_ingredient line)).getLastD []) ∧
    compute_missing_lines
        ["1 cup flour".toList, "2 eggs".toList, "1/2 cup milk".toList]
        ["flour".toList, "eggs".toList] = ["milk".toList] :=
  ⟨fun _ _ _ => mem_compute_missing_lines, ingredientKey_eq_getLastD, by decide⟩

/-- C1 witness: the characterization applied to the spec's concrete
example, with the key `"milk"`. -/
theorem C1_missing_ingredients_witness :
    "milk".toList ≠ ([] : Str) ∧
    "milk".toList ∉ (["flour".toList, "eggs".toList] : List Str) ∧
    ∃ l ∈ ["1 cup flour".toList, "2 eggs".toList, "1/2 cup milk".toList],
      pyStrip l ≠ [] ∧ ingredientKey l = "milk".toList :=
  (C1_missing_ingredients_characterization.1
    ["1 cup flour".toList, "2 eggs".toList, "1/2 cup milk".toList]
    ["flour".toList, "eggs".toList] "milk".toList).mp (by decide)

/-- C2: the implementation `_normalize_ingredient` agrees with the spec's
reference pipeline (lower-case, replace punctuation by spaces, split,
discard numeric tokens, rejoin) on every input, and on the spec's example. -/
theorem C2_normalize_matches_spec_pipeline :
    (∀ s : Str, _normalize_ingredient s = normalizeSpec s) ∧
    _normalize_ingredient "2 cups whole Milk.".toList = "cups whole milk".toList :=
  ⟨normalize_eq_spec, by decide⟩

/-- C3: the output has no duplicate keys, the source's seen-set loop is
exactly first-occurrence deduplication, and the spec's duplicate example
yields a single `"sugar"`. -/
theorem C3_output_nodup_first_occurrence :
    (∀ lines pantry : List Str, (compute_missing_lines lines pantry).Nodup) ∧
    (∀ ms : List Str, dedupFirst [] ms = firstOccurrences ms) ∧
    compute_missing_lines ["3 tbsp sugar".toList, "1 tbsp sugar".toList] []
      = ["sugar".toList] :=
  ⟨fun _ _ => nodup_dedupFirst _ _, dedupFirst_eq_firstOccurrences, by decide⟩

/-- C3 witness: no-duplicates applied to the spec's concrete example. -/
theorem C3_output_nodup_witness :
    (compute_missing_lines ["3 tbsp sugar".toList, "1 tbsp sugar".toList] []).Nodup :=
  C3_output_nodup_first_occurrence.1 ["3 tbsp sugar".toList, "1 tbsp sugar".toList] []

/-- C4 counterexample: `add_pantry_item` only strips and lower-cases, so the
stored entry `"milk."` is not a fixed point of `_normalize_ingredient`
(which would drop the trailing period). -/
theorem C4_pantry_normalized_counterexample :
    (add_pantry_item initDB "milk.".toList).pantry = ["milk.".toList] ∧
    _normalize_ingredient "milk.".toList ≠ "milk.".toList := by
  constructor
  · decide
  · decide

/-- C4 amended: pantry membership is decided by exact string equality with
no renormalization of pantry entries (an unnormalized entry `"milk."` fails
to match the key `"milk"`), and every entry stored by `add_pantry_item` is
a fixed point of strip-then-lower — though not necessarily of
`_normalize_ingredient`. -/
theorem C4_pantry_exact_match_amended :
    (∀ (lines pantry : List Str) (k : Str),
        k ∈ compute_missing_lines lines pantry → k ∉ pantry) ∧
    compute_missing_lines ["milk".toList] ["milk.".toList] = ["milk".toList] ∧
    (∀ (db : DB) (name e : Str), e ∈ (add_pantry_item db name).pantry →
        e ∈ db.pantry ∨ canonName e = e) := by
  refine ⟨fun _ _ _ h => (mem_compute_missing_lines.mp h).2.1, by decide, ?_⟩
  intro db name e he
  unfold add_pantry_item at he
  by_cases hn : name = []
  · rw [if_pos hn] at he
    exact Or.inl he
  · rw [if_neg hn] at he
    by_cases hmem : (pyStrip name).map lowerChar ∈ db.pantry
    · rw [if_pos hmem] at he
      exact Or.inl he
    · rw [if_neg hmem] at he
      simp only [List.mem_append, List.mem_singleton] at he
      rcases he with he | rfl
      · exact Or.inl he
      · exact Or.inr (canonName_canonName name)

/-- C4 witness: exact-match non-membership on the demonstration input, and
the stored-form fixed point for the entry produced from `" Butter "`. -/
theorem C4_pantry_exact_match_witness :
    "milk".toList ∉ (["milk.".toList] : List Str) ∧
    ("butter".toList ∈ initDB.pantry ∨ canonName "butter".toList = "butter".toList) :=
  ⟨C4_pantry_exact_match_amended.1 ["milk".toList] ["milk.".toList] "milk".toList
      (by decide),
    C4_pantry_exact_match_amended.2.2 initDB " Butter ".toList "butter".toList
      (by decide)⟩

/-- C5: `_normalize_ingredient` maps the empty line to the empty key, and
the empty key never appears in the Matcher's output. -/
theorem C5_no_errors_empty_key_skipped :
    _normalize_ingredient "".toList = "".toList ∧
    (∀ lines pantry : List Str, [] ∉ compute_missing_lines lines pantry) :=
  ⟨by decide, fun _ _ h => (mem_compute_missing_lines.mp h).1 rfl⟩

/-- C5 witness: the empty key is absent from a concrete output. -/
theorem C5_no_errors_witness :
    [] ∉ compute_missing_lines ["1 cup flour".toList] [] :=
  C5_no_errors_empty_key_skipped.2 ["1 cup flour".toList] []

/-- C6: `_normalize_ingredient` is idempotent. -/
theorem C6_normalize_idempotent (s : Str) :
    _normalize_ingredient (_normalize_ingredient s) = _normalize_ingredient s :=
  normalize_idem s

/-- C7: `"1/4"` is not purely numeric so it survives normalization, the key
of `"1/4 tsp red pepper flakes"` is its last token `"flakes"`, and against
pantry `{"pepper"}` the line is reported missing as `["flakes"]`. -/
theorem C7_last_token_limitation :
    pyIsDigit "1/4".toList = false ∧
    _normalize_ingredient "1/4 tsp red pepper flakes".toList
      = "1/4 tsp red pepper flakes".toList ∧
    ingredientKey "1/4 tsp red pepper flakes".toList = "flakes".toList ∧
    compute_missing_lines ["1/4 tsp red pepper flakes".toList] ["pepper".toList]
      = ["flakes".toList] := by
  refine ⟨by decide, by decide, by decide, by decide⟩

/-- C8: after any operation sequence from the initial state, pantry entries
are pairwise distinct under whitespace-trimmed case-insensitive comparison;
adding two names that agree after trimming and lower-casing leaves a single
entry. -/
theorem C8_pantry_unique_modulo_case :
    (∀ ops : List Op,
        ((applyOps initDB ops).pantry).Pairwise
          (fun a b => canonName a ≠ canonName b)) ∧
    (applyOps initDB [.addPantry " Milk ".toList, .addPantry "milk".toList]).pantry
      = ["milk".toList] :=
  ⟨fun ops => pantry_pairwise (pantryInv_applyOps ops initDB pantryInv_initDB),
    by decide⟩

/-- C8 witness: the pairwise-distinctness applied to a concrete operation
sequence. -/
theorem C8_pantry_unique_witness :
    ((applyOps initDB [Op.addPantry " Milk ".toList]).pantry).Pairwise
      (fun a b => canonName a ≠ canonName b) :=
  C8_pantry_unique_modulo_case.1 [Op.addPantry " Milk ".toList]

/-- C9: a nonempty grocery name is stored trimmed and lower-cased;
`add_missing_to_grocery` appends exactly the missing keys as stored names;
and after any operation sequence no stored grocery name contains an
upper-case letter. -/
theorem C9_grocery_names_lowercased :
    (∀ (db : DB) (name : Str), name ≠ [] →
        (add_grocery_item db name).grocery
          = db.grocery ++ [⟨db.nextGroceryId, canonName name, false⟩]) ∧
    (∀ (db : DB) (rid : Nat),
        ((add_missing_to_grocery db rid).1.grocery).map GroceryItem.name
          = db.grocery.map GroceryItem.name ++ compute_missing_ingredients db rid) ∧
    (∀ (ops : List Op), ∀ e ∈ (applyOps initDB ops).grocery,
        ∀ c ∈ e.name, isUpperA c = false) := by
  refine ⟨?_, add_missing_names,
    fun ops => groceryInv_applyOps ops initDB groceryInv_initDB⟩
  intro db name hne
  unfold add_grocery_item
  rw [if_neg hne]
  rfl

/-- C9 witness: the stored form of `" Milk "`, and the absence of upper-case
letters in a concretely stored name. -/
theorem C9_grocery_names_witness :
    (add_grocery_item initDB " Milk ".toList).grocery
      = initDB.grocery ++ [⟨initDB.nextGroceryId, canonName " Milk ".toList, false⟩] ∧
    isUpperA 'm' = false :=
  ⟨C9_grocery_names_lowercased.1 initDB " Milk ".toList (by decide),
    C9_grocery_names_lowercased.2.2 [Op.addGrocery " Milk ".toList]
      ⟨1, "milk".toList, false⟩ (by decide) 'm' (by decide)⟩

/-- C10: an unknown recipe id yields no missing ingredients, and
`add_missing_to_grocery` returns the empty list and leaves the database
unchanged. -/
theorem C10_unknown_recipe (db : DB) (rid : Nat) (h : get_recipe db rid = none) :
    compute_missing_ingredients db rid = [] ∧
      add_missing_to_grocery db rid = (db, []) := by
  have e : compute_missing_ingredients db rid = [] := by
    unfold compute_missing_ingredients
    rw [h]
  refine ⟨e, ?_⟩
  show ((compute_missing_ingredients db rid).foldl add_grocery_item db,
    compute_missing_ingredients db rid) = (db, [])
  rw [e]
  rfl

/-- C10 witness: recipe id 99 is not stored in the initial database. -/
theorem C10_unknown_recipe_witness :
    compute_missing_ingredients initDB 99 = [] ∧
      add_missing_to_grocery initDB 99 = (initDB, []) :=
  C10_unknown_recipe initDB 99 (by decide)

end HomeChef
